import Mathlib

/-!
Verification of `rest_framework_swagger/urlparser.py` (class `UrlParser`).

Python strings are embedded as `List Char`.  The Django route tree is embedded
as the inductive `RouteNode` (leaf patterns vs. resolvers with children), and
the host framework's `simplify_regex` utility — an external collaborator — is
passed in as an explicit function parameter.
-/

/-- Python strings, embedded character by character. -/
abbrev PyStr := List Char

/-- Character-wise longest common prefix of two strings. -/
def lcp2 : PyStr → PyStr → PyStr
  | c :: cs, d :: ds => if c = d then c :: lcp2 cs ds else []
  | _, _ => []

/-- One step of folding `lcp2` over a list, with `none` as the initial
accumulator standing for "no string seen yet". -/
def lcpStep (acc : Option PyStr) (x : PyStr) : Option PyStr :=
  match acc with
  | none => some x
  | some a => some (lcp2 a x)

/-- Model of Python's `os.path.commonprefix`: the character-wise longest common
prefix of all strings in the list, and the empty string for the empty list. -/
def commonLcp (m : List PyStr) : PyStr :=
  (m.foldl lcpStep none).getD []

/-- Python `s.strip(c)`: remove all leading and trailing occurrences of `c`. -/
def pyStrip (c : Char) (l : PyStr) : PyStr :=
  ((l.dropWhile (fun d => d == c)).reverse.dropWhile (fun d => d == c)).reverse

/-- Python `s.split(sep, 1)[0]` for a non-empty separator string: everything
before the first occurrence of `sep` (all of `s` when `sep` does not occur). -/
def cutAt (sep : PyStr) : PyStr → PyStr
  | [] => []
  | d :: ds => if sep.isPrefixOf (d :: ds) then [] else d :: cutAt sep ds

/-- Python `s.split(c, 1)[0]`: the part of `s` before the first occurrence of
the character `c` (all of `s` when `c` does not occur). -/
def splitHead (c : Char) (l : PyStr) : PyStr :=
  l.takeWhile (fun d => !(d == c))

/-- Python `s.rsplit(c, 1)`: split at the last occurrence of `c` when present
(two components), otherwise the one-element list `[s]`. -/
def pyRsplit1 (c : Char) (l : PyStr) : List PyStr :=
  if c ∈ l then
    [((l.reverse.dropWhile (fun d => !(d == c))).drop 1).reverse,
     (l.reverse.takeWhile (fun d => !(d == c))).reverse]
  else [l]

/-- Python `s.split(c)` with no limit, keeping empty parts; never `[]`. -/
def pySplitAll (c : Char) : PyStr → List PyStr
  | [] => [[]]
  | d :: ds =>
    match pySplitAll c ds with
    | [] => [[]]
    | s :: rest => if d == c then [] :: s :: rest else (d :: s) :: rest

/-- `UrlParser.__get_last_element__`: `paths.split('/')` indexed at its last
position, i.e. the substring after the last `/`. -/
def get_last_element (l : PyStr) : PyStr :=
  (pySplitAll '/' l).getLastD []

/-- Python substring containment `sub in s` (contiguous substring). -/
def containsSub (sub : PyStr) : PyStr → Bool
  | [] => sub.isEmpty
  | c :: rest => sub.isPrefixOf (c :: rest) || containsSub sub rest

/-- Python `s.replace(a, b)` for single characters `a`, `b`. -/
def replaceChar (a b : Char) (l : PyStr) : PyStr :=
  l.map fun c => if c = a then b else c

/-- Python string comparison `s <= t` (lexicographic on character codes). -/
def lexLe : PyStr → PyStr → Bool
  | [], _ => true
  | _ :: _, [] => false
  | a :: as, b :: bs => if a = b then lexLe as bs else decide (a < b)

/-- Python string comparison `s < t` (lexicographic on character codes). -/
def lexLt : PyStr → PyStr → Bool
  | [], [] => false
  | [], _ :: _ => true
  | _ :: _, [] => false
  | a :: as, b :: bs => if a = b then lexLt as bs else decide (a < b)

/-- The module name `rest_framework.routers` used by
`UrlParser.__exclude_router_api_root__`. -/
def routersModule : PyStr := "rest_framework.routers".toList

/-- The literal `.{format}` placeholder used by
`UrlParser.__exclude_format_endpoints__`. -/
def formatPlaceholder : PyStr := ".\x7bformat\x7d".toList

/-- A Django `RegexURLPattern` leaf, with the attributes inspected by
`UrlParser.__get_pattern_api_callback__` abstracted to flags: presence of a
`callback`, presence of `cls` / `cls_instance` on it, the results of the
`APIView` / `APIDocView` capability checks, the `__module__` names, and the
pattern's regex string. -/
structure LeafPattern where
  hasCallback : Bool
  hasCls : Bool
  clsIsAPIView : Bool
  clsIsAPIDocView : Bool
  clsModule : PyStr
  hasClsInstance : Bool
  instanceIsAPIView : Bool
  instanceIsAPIDocView : Bool
  instanceModule : PyStr
  regexPattern : PyStr
deriving DecidableEq

/-- The value returned by `UrlParser.__get_pattern_api_callback__`: either the
`cls` class or the legacy `cls_instance`, each carrying its `__module__`. -/
inductive ApiCallback where
  | cls (moduleName : PyStr)
  | clsInstance (moduleName : PyStr)
deriving DecidableEq

/-- The `__module__` attribute of the resolved callback. -/
def ApiCallback.moduleName : ApiCallback → PyStr
  | .cls m => m
  | .clsInstance m => m

/-- A node of the Django url tree: a `RegexURLPattern` leaf or a
`RegexURLResolver` with a namespace, a regex pattern and children. -/
inductive RouteNode where
  | leaf (pattern : LeafPattern)
  | resolver (ns : Option PyStr) (regexPattern : PyStr) (children : List RouteNode)

/-- The dictionary built by `UrlParser.__assemble_endpoint_data__`:
`{'path': ..., 'pattern': ..., 'callback': ...}`. -/
structure Endpoint where
  path : PyStr
  pattern : LeafPattern
  callback : ApiCallback
deriving DecidableEq

/-- `UrlParser.__get_pattern_api_callback__`. -/
def get_pattern_api_callback (p : LeafPattern) : Option ApiCallback :=
  if !p.hasCallback then none
  else if p.hasCls && p.clsIsAPIView && !p.clsIsAPIDocView then some (.cls p.clsModule)
  else if p.hasClsInstance && p.instanceIsAPIView && !p.instanceIsAPIDocView then
    some (.clsInstance p.instanceModule)
  else none

/-- `UrlParser.__exclude_router_api_root__`. -/
def exclude_router_api_root (cb : ApiCallback) : Bool :=
  cb.moduleName == routersModule

/-- `UrlParser.__exclude_format_endpoints__`. -/
def exclude_format_endpoints (path : PyStr) : Bool :=
  containsSub formatPlaceholder path

/-- `UrlParser.__assemble_endpoint_data__`, with Django's `simplify_regex`
passed in as the external collaborator `simplify`. -/
def assemble_endpoint_data (simplify : PyStr → PyStr) (pat : LeafPattern) (pre : PyStr)
    (fp : Option PyStr) : Option Endpoint :=
  match get_pattern_api_callback pat with
  | none => none
  | some cb =>
    if exclude_router_api_root cb then none
    else
      let rawPath := simplify (pre ++ pat.regexPattern)
      if (match fp with | some s => !containsSub s rawPath | none => false) then none
      else
        let path := replaceChar '>' '\x7d' (replaceChar '<' '\x7b' rawPath)
        if exclude_format_endpoints path then none
        else some ⟨path, pat, cb⟩

/-- The membership test `pattern.namespace in exclude_namespaces` (a `None`
namespace is never equal to a string in the list). -/
def nsMem (ns : Option PyStr) (excl : List PyStr) : Bool :=
  match ns with
  | none => false
  | some s => excl.contains s

/-- `UrlParser.__flatten_patterns_tree__`. -/
def flatten_patterns_tree (simplify : PyStr → PyStr) (fp : Option PyStr) (excl : List PyStr) :
    List RouteNode → PyStr → List Endpoint
  | [], _ => []
  | .leaf pat :: rest, pre =>
    (match assemble_endpoint_data simplify pat pre fp with
     | none => []
     | some e => [e]) ++ flatten_patterns_tree simplify fp excl rest pre
  | .resolver ns rp children :: rest, pre =>
    (if nsMem ns excl then []
     else flatten_patterns_tree simplify fp excl children (pre ++ rp))
      ++ flatten_patterns_tree simplify fp excl rest pre

/-- `UrlParser.get_filtered_apis`. -/
def get_filtered_apis (apis : List Endpoint) (fp : PyStr) : List Endpoint :=
  apis.filter (fun api => containsSub fp (pyStrip '/' api.path))

/-- `UrlParser.get_apis` with `patterns` supplied directly (the `urlconf`
module-loading branches are external I/O and out of scope). -/
def get_apis (simplify : PyStr → PyStr) (patterns : List RouteNode) (fp : Option PyStr)
    (excl : List PyStr) : List Endpoint :=
  let apis := flatten_patterns_tree simplify fp excl patterns []
  match fp with
  | some s => get_filtered_apis apis s
  | none => apis

/-- The separator string `/{` at which base paths are truncated in
`UrlParser.get_top_level_apis`. -/
def slashBrace : PyStr := ['/', '\x7b']

/-- The base-path list of `UrlParser.get_top_level_apis`:
`endpoint['path'].strip('/').split('/{', 1)[0]` for each endpoint. -/
def base_paths (apis : List Endpoint) : List PyStr :=
  apis.map fun e => cutAt slashBrace (pyStrip '/' e.path)

/-- The inner function `get_prefix` of `UrlParser.get_top_level_apis`:
`os.path.commonprefix` of the base paths, then `rsplit('/', 1)`, keeping the
part up to and including the last `/` when one exists. -/
def anchor_of_paths (api_paths : List PyStr) : PyStr :=
  let cp := commonLcp api_paths
  let components := pyRsplit1 '/' cp
  if 1 < components.length then components.headD [] ++ ['/']
  else components.headD []

/-- The sort relation of `UrlParser.get_top_level_apis`: Python's `sorted`
with `key=__get_last_element__`. -/
def leKey (p q : PyStr) : Prop :=
  lexLe (get_last_element p) (get_last_element q) = true

instance : DecidableRel leKey :=
  fun p q => inferInstanceAs (Decidable (lexLe (get_last_element p) (get_last_element q) = true))

/-- The strict version of `leKey`, used to state that sort keys increase. -/
def ltKey (p q : PyStr) : Prop :=
  lexLt (get_last_element p) (get_last_element q) = true

/-- The `resource_paths` set of `UrlParser.get_top_level_apis`; Python's
`set(...)` is modelled by `dedup`. -/
def resource_list (apis : List Endpoint) : List PyStr :=
  let api_paths := base_paths apis
  let pre := anchor_of_paths api_paths
  if pre = [] then (api_paths.map (splitHead '/')).dedup
  else (api_paths.map (fun p => pre ++ splitHead '/' (p.drop pre.length))).dedup

/-- `UrlParser.get_top_level_apis`: the sorted `resource_paths`; Python's
stable `sorted(..., key=__get_last_element__)` is modelled by
`insertionSort leKey`. -/
def get_top_level_apis (apis : List Endpoint) : List PyStr :=
  List.insertionSort leKey (resource_list apis)

/-- Modelled from the spec (Resource Grouper, Step 3): the variant of the
grouper that always uses an empty anchor, taking each base path's first
`/`-separated segment as its head segment. -/
def get_top_level_apis_first_segment (apis : List Endpoint) : List PyStr :=
  List.insertionSort leKey ((base_paths apis).map (splitHead '/')).dedup

/-- From the spec (Resource Grouper, Step 2): trim a string back to its last
`/` boundary, keeping that `/`; empty when the string contains no `/`. -/
def take_through_last_slash (l : PyStr) : PyStr :=
  (l.reverse.dropWhile (fun d => !(d == '/'))).reverse

/-- The url tree with every resolver subtree whose namespace is excluded
removed entirely. -/
def prune_excluded (excl : List PyStr) : List RouteNode → List RouteNode
  | [] => []
  | .leaf pat :: rest => .leaf pat :: prune_excluded excl rest
  | .resolver ns rp children :: rest =>
    if nsMem ns excl then prune_excluded excl rest
    else .resolver ns rp (prune_excluded excl children) :: prune_excluded excl rest

/-- The depth-first, left-to-right enumeration of the leaf routes visited by
`UrlParser.__flatten_patterns_tree__`, paired with their accumulated prefix. -/
def dfs_leaves (excl : List PyStr) : List RouteNode → PyStr → List (PyStr × LeafPattern)
  | [], _ => []
  | .leaf pat :: rest, pre => (pre, pat) :: dfs_leaves excl rest pre
  | .resolver ns rp children :: rest, pre =>
    (if nsMem ns excl then [] else dfs_leaves excl children (pre ++ rp))
      ++ dfs_leaves excl rest pre

/-- `UrlParser.__assemble_endpoint_data__` with a fallible `simplify`
collaborator: the outer `none` models an exception escaping the call, the
inner `none` models "this leaf contributes nothing". -/
def assemble_endpoint_dataE (simplifyE : PyStr → Option PyStr) (pat : LeafPattern) (pre : PyStr)
    (fp : Option PyStr) : Option (Option Endpoint) :=
  match get_pattern_api_callback pat with
  | none => some none
  | some cb =>
    if exclude_router_api_root cb then some none
    else
      match simplifyE (pre ++ pat.regexPattern) with
      | none => none
      | some rawPath =>
        if (match fp with | some s => !containsSub s rawPath | none => false) then some none
        else
          let path := replaceChar '>' '\x7d' (replaceChar '<' '\x7b' rawPath)
          if exclude_format_endpoints path then some none
          else some (some ⟨path, pat, cb⟩)

/-- `UrlParser.__flatten_patterns_tree__` with a fallible `simplify`
collaborator; `none` models an exception propagating to the caller, so no
partial list is ever produced. -/
def flatten_patterns_treeE (simplifyE : PyStr → Option PyStr) (fp : Option PyStr)
    (excl : List PyStr) : List RouteNode → PyStr → Option (List Endpoint)
  | [], _ => some []
  | .leaf pat :: rest, pre =>
    (match assemble_endpoint_dataE simplifyE pat pre fp with
     | none => none
     | some none => flatten_patterns_treeE simplifyE fp excl rest pre
     | some (some e) => (flatten_patterns_treeE simplifyE fp excl rest pre).map (e :: ·))
  | .resolver ns rp children :: rest, pre =>
    if nsMem ns excl then flatten_patterns_treeE simplifyE fp excl rest pre
    else
      match flatten_patterns_treeE simplifyE fp excl children (pre ++ rp) with
      | none => none
      | some l1 => (flatten_patterns_treeE simplifyE fp excl rest pre).map (l1 ++ ·)

/-- Folds `assemble_endpoint_dataE` over an already-enumerated leaf list,
propagating an exception (outer `none`) exactly as the flattening loop does. -/
def collectE (simplifyE : PyStr → Option PyStr) (fp : Option PyStr) :
    List (PyStr × LeafPattern) → Option (List Endpoint)
  | [] => some []
  | (pr, pat) :: rest =>
    match assemble_endpoint_dataE simplifyE pat pr fp with
    | none => none
    | some none => collectE simplifyE fp rest
    | some (some e) => (collectE simplifyE fp rest).map (e :: ·)

/-- A leaf pattern whose callback passes every documentability check. -/
def dummyPat : LeafPattern :=
  ⟨true, true, true, false, "myapp.views".toList, false, false, false, [], []⟩

/-- An endpoint record with the given path, used as concrete grouper input. -/
def pathEp (s : PyStr) : Endpoint :=
  ⟨s, dummyPat, .cls ("myapp.views".toList)⟩

/-- A leaf route whose regex pattern contains the angle-bracket capture text
`<v>`, as Django's `simplify_regex` produces for named groups. -/
def patAngle : LeafPattern :=
  ⟨true, true, true, false, "myapp.views".toList, false, false, false, [], "x/<v>".toList⟩

/-- The one-leaf route tree `[leaf patAngle]` used as concrete input. -/
def treeAngle : List RouteNode := [.leaf patAngle]

/-! ### Longest-common-prefix lemmas -/

theorem lcp2_comm : ∀ a b : PyStr, lcp2 a b = lcp2 b a
  | [], [] => rfl
  | [], _ :: _ => rfl
  | _ :: _, [] => rfl
  | a :: as, b :: bs => by
    by_cases h : a = b
    · subst h; simp [lcp2, lcp2_comm as bs]
    · simp [lcp2, h, Ne.symm h]

theorem lcp2_assoc : ∀ a b c : PyStr, lcp2 (lcp2 a b) c = lcp2 a (lcp2 b c)
  | [], b, c => by cases b <;> cases c <;> simp [lcp2]
  | _ :: _, [], c => by cases c <;> simp [lcp2]
  | _ :: _, _ :: _, [] => by
    simp only [lcp2]
    split <;> simp [lcp2]
  | a :: as, b :: bs, c :: cs => by
    by_cases h1 : a = b
    · subst h1
      by_cases h2 : a = c
      · subst h2; simp [lcp2, lcp2_assoc as bs cs]
      · simp [lcp2, h2]
    · by_cases h2 : b = c
      · subst h2; simp [lcp2, h1]
      · simp [lcp2, h1, h2]

theorem lcp2_isPre_left : ∀ a b : PyStr, lcp2 a b <+: a
  | [], b => by cases b <;> simp [lcp2]
  | _ :: _, [] => by simp [lcp2]
  | a :: as, b :: bs => by
    by_cases h : a = b
    · subst h
      simp only [lcp2, if_pos rfl]
      exact List.cons_prefix_cons.2 ⟨rfl, lcp2_isPre_left as bs⟩
    · simp [lcp2, h]

theorem foldl_lcpStep_some : ∀ (xs : List PyStr) (a : PyStr),
    xs.foldl lcpStep (some a) = some (xs.foldl lcp2 a)
  | [], _ => rfl
  | x :: xs, a => by
    simp only [List.foldl_cons]
    exact foldl_lcpStep_some xs (lcp2 a x)

theorem commonLcp_cons (x : PyStr) (xs : List PyStr) :
    commonLcp (x :: xs) = xs.foldl lcp2 x := by
  simp [commonLcp, lcpStep, foldl_lcpStep_some]

theorem foldl_lcp2_isPre_init : ∀ (xs : List PyStr) (a : PyStr), xs.foldl lcp2 a <+: a
  | [], a => List.prefix_refl a
  | x :: xs, a => by
    simp only [List.foldl_cons]
    exact (foldl_lcp2_isPre_init xs (lcp2 a x)).trans (lcp2_isPre_left a x)

theorem foldl_lcp2_isPre_mem :
    ∀ (xs : List PyStr) (a y : PyStr), y ∈ xs → xs.foldl lcp2 a <+: y
  | x :: xs, a, y, hy => by
    simp only [List.foldl_cons]
    rcases List.mem_cons.1 hy with h | h
    · subst h
      refine (foldl_lcp2_isPre_init xs (lcp2 a y)).trans ?_
      rw [lcp2_comm]
      exact lcp2_isPre_left y a
    · exact foldl_lcp2_isPre_mem xs (lcp2 a x) y h

theorem commonLcp_isPre_mem {m : List PyStr} {x : PyStr} (hx : x ∈ m) :
    commonLcp m <+: x := by
  cases m with
  | nil => cases hx
  | cons y ys =>
    rw [commonLcp_cons]
    rcases List.mem_cons.1 hx with h | h
    · subst h; exact foldl_lcp2_isPre_init ys x
    · exact foldl_lcp2_isPre_mem ys y x h

theorem commonLcp_perm {m m' : List PyStr} (h : m.Perm m') : commonLcp m = commonLcp m' := by
  have hc : ∀ x ∈ m, ∀ y ∈ m, ∀ z, lcpStep (lcpStep z x) y = lcpStep (lcpStep z y) x := by
    intro x _ y _ z
    cases z with
    | none => simp [lcpStep, lcp2_comm x y]
    | some a =>
      simp only [lcpStep, Option.some.injEq]
      rw [lcp2_assoc, lcp2_assoc, lcp2_comm x y]
  unfold commonLcp
  rw [h.foldl_eq' hc none]

/-! ### Last-path-segment lemmas -/

theorem pySplitAll_ne_nil (c : Char) (l : PyStr) : pySplitAll c l ≠ [] := by
  cases l with
  | nil => simp [pySplitAll]
  | cons d ds =>
    simp only [pySplitAll]
    cases h : pySplitAll c ds with
    | nil => simp
    | cons s rest => by_cases hd : d = c <;> simp [hd]

theorem pySplitAll_not_mem {c : Char} : ∀ {l : PyStr}, c ∉ l → pySplitAll c l = [l]
  | [], _ => rfl
  | d :: ds, h => by
    have hd : ¬ d = c := fun he => h (by rw [he]; exact List.mem_cons_self _ _)
    have hds : c ∉ ds := fun hm => h (List.mem_cons_of_mem _ hm)
    simp [pySplitAll, pySplitAll_not_mem hds, hd]

theorem get_last_element_no_slash {l : PyStr} (h : '/' ∉ l) : get_last_element l = l := by
  simp [get_last_element, pySplitAll_not_mem h]

theorem pySplitAll_len2 {c : Char} : ∀ {l : PyStr}, c ∈ l → 2 ≤ (pySplitAll c l).length
  | d :: ds, h => by
    cases h' : pySplitAll c ds with
    | nil => exact absurd h' (pySplitAll_ne_nil c ds)
    | cons s rest =>
      simp only [pySplitAll, h']
      by_cases hd : d = c
      · simp [hd]
      · have hc : c ∈ ds := by
          rcases List.mem_cons.1 h with h1 | h1
          · exact absurd h1.symm hd
          · exact h1
        have h2 := pySplitAll_len2 hc
        rw [h'] at h2
        simp only [List.length_cons] at h2
        simp [hd]
        omega

theorem getLastD_irrel {α : Type} {l : List α} (hl : l ≠ []) (a b : α) :
    l.getLastD a = l.getLastD b := by
  rw [List.getLastD_eq_getLast?, List.getLastD_eq_getLast?,
    List.getLast?_eq_getLast l hl]
  rfl

theorem pySplitAll_sep_cons (c : Char) (l : PyStr) :
    pySplitAll c (c :: l) = [] :: pySplitAll c l := by
  cases h : pySplitAll c l with
  | nil => exact absurd h (pySplitAll_ne_nil c l)
  | cons s rest => simp [pySplitAll, h]

theorem pySplitAll_cons_ne {c d : Char} (hd : ¬ d = c) (l : PyStr) :
    ∀ {s : PyStr} {rest : List PyStr}, pySplitAll c l = s :: rest →
      pySplitAll c (d :: l) = (d :: s) :: rest := by
  intro s rest h
  simp [pySplitAll, h, hd]

theorem get_last_element_append_slash : ∀ (xs ys : PyStr),
    get_last_element (xs ++ '/' :: ys) = get_last_element ys
  | [], ys => by
    show get_last_element ('/' :: ys) = get_last_element ys
    rw [get_last_element, pySplitAll_sep_cons, List.getLastD_cons]
    rfl
  | d :: xs, ys => by
    have hmem : '/' ∈ (xs ++ '/' :: ys) :=
      List.mem_append_right _ (List.mem_cons_self _ _)
    cases h : pySplitAll '/' (xs ++ '/' :: ys) with
    | nil => exact absurd h (pySplitAll_ne_nil _ _)
    | cons s rest =>
      have hrest : rest ≠ [] := by
        have h2 := pySplitAll_len2 hmem
        rw [h] at h2
        intro hr
        subst hr
        simp at h2
      have ih := get_last_element_append_slash xs ys
      rw [get_last_element, h] at ih
      by_cases hd : d = '/'
      · subst hd
        show get_last_element ('/' :: (xs ++ '/' :: ys)) = get_last_element ys
        rw [get_last_element, pySplitAll_sep_cons, h, List.getLastD_cons]
        rw [List.getLastD_cons] at ih ⊢
        exact ih
      · show get_last_element (d :: (xs ++ '/' :: ys)) = get_last_element ys
        rw [get_last_element, pySplitAll_cons_ne hd _ h, List.getLastD_cons]
        rw [List.getLastD_cons] at ih
        rw [getLastD_irrel hrest (d :: s) s]
        exact ih

/-! ### Lexicographic comparison lemmas -/

theorem lexLe_refl : ∀ a : PyStr, lexLe a a = true
  | [] => rfl
  | a :: as => by simp [lexLe, lexLe_refl as]

theorem lexLe_antisymm : ∀ {a b : PyStr}, lexLe a b = true → lexLe b a = true → a = b
  | [], [], _, _ => rfl
  | [], _ :: _, _, h2 => by simp [lexLe] at h2
  | _ :: _, [], h1, _ => by simp [lexLe] at h1
  | a :: as, b :: bs, h1, h2 => by
    by_cases h : a = b
    · subst h
      simp only [lexLe, if_pos rfl] at h1 h2
      rw [lexLe_antisymm h1 h2]
    · simp only [lexLe, if_neg h, if_neg (Ne.symm h), decide_eq_true_eq] at h1 h2
      exact absurd (lt_trans h1 h2) (lt_irrefl a)

theorem lexLe_total : ∀ a b : PyStr, lexLe a b = true ∨ lexLe b a = true
  | [], b => Or.inl (by cases b <;> rfl)
  | _ :: _, [] => Or.inr rfl
  | a :: as, b :: bs => by
    by_cases h : a = b
    · subst h
      rcases lexLe_total as bs with h1 | h1
      · exact Or.inl (by simp [lexLe, h1])
      · exact Or.inr (by simp [lexLe, h1])
    · rcases lt_trichotomy a b with hlt | heq | hgt
      · exact Or.inl (by simp [lexLe, h, hlt])
      · exact absurd heq h
      · exact Or.inr (by simp [lexLe, Ne.symm h, hgt])

theorem lexLe_trans : ∀ {a b c : PyStr}, lexLe a b = true → lexLe b c = true → lexLe a c = true
  | [], _, c, _, _ => by cases c <;> rfl
  | _ :: _, [], _, h1, _ => by simp [lexLe] at h1
  | _ :: _, _ :: _, [], _, h2 => by simp [lexLe] at h2
  | a :: as, b :: bs, c :: cs, h1, h2 => by
    by_cases hab : a = b <;> by_cases hbc : b = c
    · subst hab; subst hbc
      simp only [lexLe, if_pos rfl] at h1 h2 ⊢
      exact lexLe_trans h1 h2
    · subst hab
      simp only [lexLe, if_pos rfl, if_neg hbc, decide_eq_true_eq] at h2
      simp [lexLe, ne_of_lt h2, h2]
    · subst hbc
      simp only [lexLe, if_neg hab, decide_eq_true_eq] at h1
      simp [lexLe, ne_of_lt h1, h1]
    · simp only [lexLe, if_neg hab, if_neg hbc, decide_eq_true_eq] at h1 h2
      have hac := lt_trans h1 h2
      simp [lexLe, ne_of_lt hac, hac]

theorem lexLt_asymm : ∀ {a b : PyStr}, lexLt a b = true → lexLt b a = true → False
  | [], [], h1, _ => by simp [lexLt] at h1
  | [], _ :: _, _, h2 => by simp [lexLt] at h2
  | _ :: _, [], h1, _ => by simp [lexLt] at h1
  | a :: as, b :: bs, h1, h2 => by
    by_cases h : a = b
    · subst h
      simp only [lexLt, if_pos rfl] at h1 h2
      exact lexLt_asymm h1 h2
    · simp only [lexLt, if_neg h, if_neg (Ne.symm h), decide_eq_true_eq] at h1 h2
      exact absurd (lt_trans h1 h2) (lt_irrefl a)

theorem lexLt_of_le_ne : ∀ {a b : PyStr}, lexLe a b = true → a ≠ b → lexLt a b = true
  | [], [], _, hne => absurd rfl hne
  | [], _ :: _, _, _ => rfl
  | _ :: _, [], h1, _ => by simp [lexLe] at h1
  | a :: as, b :: bs, h1, hne => by
    by_cases h : a = b
    · subst h
      simp only [lexLe, if_pos rfl] at h1
      simp only [lexLt, if_pos rfl]
      exact lexLt_of_le_ne h1 (fun hh => hne (by rw [hh]))
    · simp only [lexLe, if_neg h, decide_eq_true_eq] at h1
      simp [lexLt, h, h1]

instance : IsTrans PyStr leKey := ⟨fun _ _ _ h1 h2 => lexLe_trans h1 h2⟩

instance : IsTotal PyStr leKey := ⟨fun _ _ => lexLe_total _ _⟩

instance : IsAntisymm PyStr ltKey := ⟨fun _ _ h1 h2 => (lexLt_asymm h1 h2).elim⟩

/-! ### Head-segment and anchor lemmas -/

theorem splitHead_not_mem (c : Char) (l : PyStr) : c ∉ splitHead c l := by
  intro h
  have := List.mem_takeWhile_imp h
  simp at this

theorem splitHead_eq_of_not_mem {c : Char} {l : PyStr} (h : c ∉ l) : splitHead c l = l := by
  unfold splitHead
  rw [List.takeWhile_eq_self_iff.2]
  intro x hx
  simp only [Bool.not_eq_eq_eq_not, Bool.not_true, beq_eq_false_iff_ne, ne_eq]
  exact fun he => h (he ▸ hx)

theorem splitHead_append_of_not_mem {c : Char} {a : PyStr} (h : c ∉ a) (t : PyStr) :
    splitHead c (a ++ t) = a ++ splitHead c t := by
  unfold splitHead
  rw [List.takeWhile_append_of_pos]
  intro x hx
  simp only [Bool.not_eq_eq_eq_not, Bool.not_true, beq_eq_false_iff_ne, ne_eq]
  exact fun he => h (he ▸ hx)

theorem dropWhile_slash_cons {cp : PyStr} (h : '/' ∈ cp) :
    cp.reverse.dropWhile (fun d => !(d == '/')) =
      '/' :: (cp.reverse.dropWhile (fun d => !(d == '/'))).tail := by
  have hne : cp.reverse.dropWhile (fun d => !(d == '/')) ≠ [] := by
    intro hnil
    rw [List.dropWhile_eq_nil_iff] at hnil
    have := hnil '/' (List.mem_reverse.2 h)
    simp at this
  have hhead : (cp.reverse.dropWhile (fun d => !(d == '/'))).head hne = '/' := by
    have := List.head_dropWhile_not (fun d => !(d == '/')) cp.reverse hne
    simpa using this
  conv_lhs => rw [← List.head_cons_tail _ hne, hhead]

theorem take_through_last_slash_shape {cp : PyStr} (h : '/' ∈ cp) :
    ∃ w, take_through_last_slash cp = w ++ ['/'] := by
  refine ⟨(cp.reverse.dropWhile (fun d => !(d == '/'))).tail.reverse, ?_⟩
  rw [take_through_last_slash]
  conv_lhs => rw [dropWhile_slash_cons h]
  simp

theorem anchor_characterize (l : List PyStr) :
    anchor_of_paths l =
      if '/' ∈ commonLcp l then take_through_last_slash (commonLcp l) else commonLcp l := by
  by_cases h : '/' ∈ commonLcp l
  · rw [if_pos h]
    simp only [anchor_of_paths, pyRsplit1, if_pos h]
    simp only [List.length_cons, List.length_singleton, List.headD_cons]
    rw [if_pos (by omega)]
    rw [take_through_last_slash]
    conv_rhs => rw [dropWhile_slash_cons h]
    simp [List.drop_one]
  · rw [if_neg h]
    simp only [anchor_of_paths, pyRsplit1, if_neg h]
    simp

theorem anchor_shape (l : List PyStr) :
    '/' ∉ anchor_of_paths l ∨ ∃ w, anchor_of_paths l = w ++ ['/'] := by
  rw [anchor_characterize]
  by_cases h : '/' ∈ commonLcp l
  · right
    rw [if_pos h]
    exact take_through_last_slash_shape h
  · left
    rw [if_neg h]
    exact h

theorem anchor_congr {l l' : List PyStr} (h : commonLcp l = commonLcp l') :
    anchor_of_paths l = anchor_of_paths l' := by
  simp only [anchor_of_paths, h]

/-! ### Grouper structure lemmas -/

theorem mem_resource_shape {apis : List Endpoint} {x : PyStr}
    (hx : x ∈ resource_list apis) :
    ∃ h, '/' ∉ h ∧ x = anchor_of_paths (base_paths apis) ++ h := by
  simp only [resource_list] at hx
  split at hx
  case isTrue hpre =>
    rw [List.mem_dedup] at hx
    rcases List.mem_map.1 hx with ⟨p, _, hp⟩
    refine ⟨x, ?_, by rw [hpre]; simp⟩
    rw [← hp]
    exact splitHead_not_mem '/' p
  case isFalse hpre =>
    rw [List.mem_dedup] at hx
    rcases List.mem_map.1 hx with ⟨p, _, hp⟩
    exact ⟨splitHead '/' (p.drop (anchor_of_paths (base_paths apis)).length),
      splitHead_not_mem _ _, hp.symm⟩

theorem key_inj_of_shape {A h1 h2 : PyStr}
    (hA : '/' ∉ A ∨ ∃ w, A = w ++ ['/'])
    (hs1 : '/' ∉ h1) (hs2 : '/' ∉ h2)
    (hk : get_last_element (A ++ h1) = get_last_element (A ++ h2)) :
    A ++ h1 = A ++ h2 := by
  rcases hA with hA | ⟨w, rfl⟩
  · have e1 : get_last_element (A ++ h1) = A ++ h1 := by
      apply get_last_element_no_slash
      intro hm
      rcases List.mem_append.1 hm with hm | hm
      · exact hA hm
      · exact hs1 hm
    have e2 : get_last_element (A ++ h2) = A ++ h2 := by
      apply get_last_element_no_slash
      intro hm
      rcases List.mem_append.1 hm with hm | hm
      · exact hA hm
      · exact hs2 hm
    rw [e1, e2] at hk
    exact hk
  · have e1 : get_last_element (w ++ ['/'] ++ h1) = h1 := by
      rw [List.append_assoc]
      rw [show (['/'] ++ h1) = '/' :: h1 from rfl]
      rw [get_last_element_append_slash w h1]
      exact get_last_element_no_slash hs1
    have e2 : get_last_element (w ++ ['/'] ++ h2) = h2 := by
      rw [List.append_assoc]
      rw [show (['/'] ++ h2) = '/' :: h2 from rfl]
      rw [get_last_element_append_slash w h2]
      exact get_last_element_no_slash hs2
    rw [e1, e2] at hk
    rw [hk]

theorem resource_list_nodup (apis : List Endpoint) : (resource_list apis).Nodup := by
  simp only [resource_list]
  split <;> exact List.nodup_dedup _

theorem top_perm_resource (apis : List Endpoint) :
    (get_top_level_apis apis).Perm (resource_list apis) :=
  List.perm_insertionSort leKey (resource_list apis)

theorem top_sorted_le (apis : List Endpoint) :
    (get_top_level_apis apis).Pairwise leKey :=
  List.sorted_insertionSort leKey (resource_list apis)

theorem mem_top_shape {apis : List Endpoint} {x : PyStr}
    (hx : x ∈ get_top_level_apis apis) :
    ∃ h, '/' ∉ h ∧ x = anchor_of_paths (base_paths apis) ++ h :=
  mem_resource_shape ((top_perm_resource apis).mem_iff.1 hx)

theorem top_sorted_strict (apis : List Endpoint) :
    (get_top_level_apis apis).Pairwise ltKey := by
  have hnd : (get_top_level_apis apis).Nodup :=
    (top_perm_resource apis).nodup_iff.2 (resource_list_nodup apis)
  have hs := top_sorted_le apis
  refine List.Pairwise.imp_of_mem ?_ (hs.and hnd)
  intro a b ha hb hab
  rcases hab with ⟨hle, hne⟩
  rcases mem_top_shape ha with ⟨h1, hs1, rfl⟩
  rcases mem_top_shape hb with ⟨h2, hs2, rfl⟩
  apply lexLt_of_le_ne hle
  intro hkeq
  exact hne (key_inj_of_shape (anchor_shape _) hs1 hs2 hkeq)

theorem resource_list_perm {l l' : List Endpoint} (h : l.Perm l') :
    (resource_list l).Perm (resource_list l') := by
  have hbp : (base_paths l).Perm (base_paths l') := h.map _
  have han : anchor_of_paths (base_paths l) = anchor_of_paths (base_paths l') :=
    anchor_congr (commonLcp_perm hbp)
  simp only [resource_list]
  rw [← han]
  by_cases hpre : anchor_of_paths (base_paths l) = []
  · rw [if_pos hpre, if_pos hpre]
    exact (hbp.map _).dedup
  · rw [if_neg hpre, if_neg hpre]
    exact (hbp.map _).dedup

/-! ### Claims about the resource grouper -/

/-- **C2, counterexample**: for the base paths `api1/x` and `api2/y` the
character-wise common prefix is `api`, which contains no `/`; the claim says
the anchor must then be empty, but `get_prefix` returns the whole common
prefix `api`. -/
theorem anchor_noslash_cex :
    commonLcp [("api1/x".toList), ("api2/y".toList)] = "api".toList ∧
      '/' ∉ commonLcp [("api1/x".toList), ("api2/y".toList)] ∧
      anchor_of_paths [("api1/x".toList), ("api2/y".toList)] = "api".toList := by
  refine ⟨by decide, by decide, by decide⟩

/-- **C2** (amended): the anchor computed by `get_top_level_apis` is the
character-wise longest common prefix of the base paths trimmed back to the
last `/` boundary (ending in `/`) whenever that common prefix contains a `/`,
and is the entire common prefix (not the empty string) otherwise. -/
theorem anchor_trim_behavior : ∀ l : List PyStr,
    anchor_of_paths l =
      if '/' ∈ commonLcp l then take_through_last_slash (commonLcp l)
      else commonLcp l :=
  anchor_characterize

/-- **C5**: no returned resource path, followed by `/`, is a prefix of
another returned resource path: the result of `get_top_level_apis` never
contains both a resource and a strict segment-descendant of it. -/
theorem top_level_no_ancestor : ∀ (apis : List Endpoint) (p q : PyStr),
    p ∈ get_top_level_apis apis → q ∈ get_top_level_apis apis → p ≠ q →
    ¬ (p ++ ['/']) <+: q := by
  intro apis p q hp hq hne hpre
  rcases mem_top_shape hp with ⟨h1, hs1, rfl⟩
  rcases mem_top_shape hq with ⟨h2, hs2, rfl⟩
  rw [List.append_assoc, List.prefix_append_right_inj] at hpre
  have hmem : '/' ∈ h2 :=
    hpre.sublist.subset (List.mem_append_right h1 (by simp))
  exact hs2 hmem

/-- Witness for **C5** at a concrete input: `get_top_level_apis` on paths
`/doc/index` and `/api/stuff` returns both `api` and `doc`, and `api/` is not
a prefix of `doc`. -/
theorem top_level_no_ancestor_witness :
    ¬ (("api".toList) ++ ['/']) <+: ("doc".toList) :=
  top_level_no_ancestor [pathEp ("/doc/index".toList), pathEp ("/api/stuff".toList)]
    ("api".toList) ("doc".toList) (by decide) (by decide) (by decide)

/-- **C6**: the sequence returned by `get_top_level_apis` is sorted in
ascending lexicographic order of each element's final path segment
(`__get_last_element__`). -/
theorem top_level_sorted_by_last : ∀ apis : List Endpoint,
    (get_top_level_apis apis).Pairwise leKey :=
  top_sorted_le

/-- **C7**: `get_top_level_apis` applied to an endpoint list and to any
permutation of it yields the same sequence (hence the same set) of resource
paths. -/
theorem top_level_perm_invariant : ∀ l l' : List Endpoint, l.Perm l' →
    get_top_level_apis l = get_top_level_apis l' := by
  intro l l' h
  have hperm : (get_top_level_apis l).Perm (get_top_level_apis l') :=
    (top_perm_resource l).trans ((resource_list_perm h).trans (top_perm_resource l').symm)
  exact List.eq_of_perm_of_sorted hperm (top_sorted_strict l) (top_sorted_strict l')

/-- Witness for **C7** at a concrete input: swapping a two-endpoint list
leaves the output of `get_top_level_apis` unchanged. -/
theorem top_level_perm_invariant_witness :
    get_top_level_apis [pathEp ("/doc/index".toList), pathEp ("/api/stuff".toList)] =
      get_top_level_apis [pathEp ("/api/stuff".toList), pathEp ("/doc/index".toList)] :=
  top_level_perm_invariant _ _ (List.Perm.swap _ _ _)

/-- **C8**: `get_top_level_apis` on the two-endpoint list with paths
`/doc/index` and `/api/{version}/echo` returns exactly `['api', 'doc']`. -/
theorem top_level_concrete_doc_api :
    get_top_level_apis [pathEp ("/doc/index".toList),
      pathEp ("/api/\x7bversion\x7d/echo".toList)] = ["api".toList, "doc".toList] := by
  decide

/-- **C10**: whenever the character-wise common prefix of the base paths
contains no `/`, `get_top_level_apis` (which then uses that entire common
prefix as the anchor) agrees with the spec variant that uses an empty anchor
and takes each base path's first `/`-separated segment. -/
theorem anchor_noslash_equiv_first_segment : ∀ apis : List Endpoint,
    '/' ∉ commonLcp (base_paths apis) →
    get_top_level_apis apis = get_top_level_apis_first_segment apis := by
  intro apis h
  unfold get_top_level_apis get_top_level_apis_first_segment
  congr 1
  simp only [resource_list]
  by_cases hpre : anchor_of_paths (base_paths apis) = []
  · rw [if_pos hpre]
  · rw [if_neg hpre]
    have han : anchor_of_paths (base_paths apis) = commonLcp (base_paths apis) := by
      rw [anchor_characterize, if_neg h]
    congr 1
    apply List.map_congr_left
    intro p hp
    rcases commonLcp_isPre_mem hp with ⟨t, rfl⟩
    rw [han, List.drop_left, splitHead_append_of_not_mem h]

/-- Witness for **C10** at a concrete input: paths `/api1/x` and `/api2/y`
have the slash-free common prefix `api`, and both grouper variants return
`['api1', 'api2']`. -/
theorem anchor_noslash_equiv_first_segment_witness :
    '/' ∉ commonLcp (base_paths [pathEp ("/api1/x".toList), pathEp ("/api2/y".toList)]) ∧
      get_top_level_apis [pathEp ("/api1/x".toList), pathEp ("/api2/y".toList)] =
        get_top_level_apis_first_segment
          [pathEp ("/api1/x".toList), pathEp ("/api2/y".toList)] :=
  ⟨by decide, anchor_noslash_equiv_first_segment _ (by decide)⟩

/-! ### Flattener structure lemmas -/

theorem flatten_eq_dfs (simplify : PyStr → PyStr) (fp : Option PyStr) (excl : List PyStr) :
    ∀ (t : List RouteNode) (pre : PyStr),
    flatten_patterns_tree simplify fp excl t pre =
      (dfs_leaves excl t pre).filterMap
        (fun pp => assemble_endpoint_data simplify pp.2 pp.1 fp) := by
  intro t pre
  induction t, pre using flatten_patterns_tree.induct simplify fp excl with
  | case1 pre => simp [flatten_patterns_tree, dfs_leaves]
  | case2 pat rest pre ih =>
    rw [flatten_patterns_tree, dfs_leaves, List.filterMap_cons, ih]
    cases assemble_endpoint_data simplify pat pre fp <;> simp
  | case3 ns rp children rest pre ih1 ih2 =>
    rw [flatten_patterns_tree, dfs_leaves, List.filterMap_append, ih1, ih2]
    by_cases hns : nsMem ns excl <;> simp [hns]

theorem dfs_prune (excl : List PyStr) : ∀ (t : List RouteNode) (pre : PyStr),
    dfs_leaves excl (prune_excluded excl t) pre = dfs_leaves excl t pre := by
  intro t pre
  induction t, pre using dfs_leaves.induct excl with
  | case1 pre => simp [prune_excluded, dfs_leaves]
  | case2 pat rest pre ih =>
    rw [prune_excluded, dfs_leaves, dfs_leaves, ih]
  | case3 ns rp children rest pre ih1 ih2 =>
    rw [prune_excluded, dfs_leaves]
    by_cases hns : nsMem ns excl
    · rw [if_pos hns, if_pos hns, ih2]
      simp
    · rw [if_neg hns, if_neg hns, dfs_leaves, if_neg hns, ih1, ih2]

theorem assemble_mono {simplify : PyStr → PyStr} {pat : LeafPattern} {pre : PyStr}
    {s : PyStr} {e : Endpoint}
    (h : assemble_endpoint_data simplify pat pre (some s) = some e) :
    assemble_endpoint_data simplify pat pre none = some e := by
  unfold assemble_endpoint_data at h ⊢
  cases hcb : get_pattern_api_callback pat with
  | none => rw [hcb] at h; simp at h
  | some cb =>
    rw [hcb] at h
    simp only [] at h ⊢
    by_cases hr : exclude_router_api_root cb
    · simp [hr] at h
    · simp only [hr, Bool.false_eq_true, if_false] at h ⊢
      split at h
      · simp at h
      · simpa using h

theorem filterMap_mono_sublist {α β : Type} {f g : α → Option β}
    (hfg : ∀ x e, f x = some e → g x = some e) :
    ∀ l : List α, (l.filterMap f).Sublist (l.filterMap g)
  | [] => List.Sublist.refl _
  | x :: l => by
    rw [List.filterMap_cons, List.filterMap_cons]
    cases hf : f x with
    | none =>
      cases hg : g x with
      | none => exact filterMap_mono_sublist hfg l
      | some e => exact (filterMap_mono_sublist hfg l).cons e
    | some e =>
      rw [hfg x e hf]
      exact (filterMap_mono_sublist hfg l).cons₂ e

/-! ### Claims about the flattener -/

/-- **C3**: namespace exclusion is total: `get_apis` on a tree equals
`get_apis` on the tree with every excluded-namespace resolver subtree removed
entirely, so no descriptor is derived from any node below such a resolver at
any depth. -/
theorem get_apis_prune_excluded : ∀ (simplify : PyStr → PyStr) (t : List RouteNode)
    (fp : Option PyStr) (excl : List PyStr),
    get_apis simplify t fp excl = get_apis simplify (prune_excluded excl t) fp excl := by
  intro simplify t fp excl
  have h : flatten_patterns_tree simplify fp excl t [] =
      flatten_patterns_tree simplify fp excl (prune_excluded excl t) [] := by
    rw [flatten_eq_dfs, flatten_eq_dfs, dfs_prune]
  simp only [get_apis, h]

/-- **C4**: the flattener emits exactly one descriptor per visited leaf that
passes every filter, in depth-first left-to-right traversal order with no
sorting: it equals `filterMap` of the per-leaf assembly over the depth-first
leaf enumeration. -/
theorem flatten_eq_filterMap_dfs : ∀ (simplify : PyStr → PyStr) (fp : Option PyStr)
    (excl : List PyStr) (t : List RouteNode) (pre : PyStr),
    flatten_patterns_tree simplify fp excl t pre =
      (dfs_leaves excl t pre).filterMap
        (fun pp => assemble_endpoint_data simplify pp.2 pp.1 fp) :=
  fun simplify fp excl => flatten_eq_dfs simplify fp excl

/-- **C1, counterexample**: with the identity as the pattern simplifier, the
tree holding the single leaf `x/<v>` and the filter string `{v}`, the
filtered `get_apis` run returns `[]`, while restricting the unfiltered run to
descriptors whose stripped path contains `{v}` keeps the descriptor with path
`x/{v}`: the in-flatten filter tests the path before the `<`/`>` to `{`/`}`
replacement, so the two runs disagree. -/
theorem get_apis_filter_mismatch_cex :
    get_apis id treeAngle (some ("\x7bv\x7d".toList)) [] ≠
      (get_apis id treeAngle none []).filter
        (fun e => containsSub ("\x7bv\x7d".toList) (pyStrip '/' e.path)) := by
  have h1 : get_apis id treeAngle (some ("\x7bv\x7d".toList)) [] = [] := by
    simp [get_apis, treeAngle, flatten_patterns_tree, assemble_endpoint_data, patAngle,
      get_pattern_api_callback, exclude_router_api_root, get_filtered_apis]
    decide
  rw [h1]
  have h2 : get_apis id treeAngle none [] =
      [⟨"x/\x7bv\x7d".toList, patAngle, .cls ("myapp.views".toList)⟩] := by
    simp [get_apis, treeAngle, flatten_patterns_tree, assemble_endpoint_data, patAngle,
      get_pattern_api_callback, exclude_router_api_root, exclude_format_endpoints]
    decide
  rw [h2]
  decide

/-- **C1** (amended): the filtered `get_apis` run is a subsequence of the
unfiltered run, and every descriptor it returns has the filter string in its
stripped path; it may omit descriptors whose stripped path contains the
filter string when that string does not occur in the path before the
`<`/`>` to `{`/`}` replacement. -/
theorem get_apis_filter_sublist : ∀ (simplify : PyStr → PyStr) (t : List RouteNode)
    (s : PyStr) (excl : List PyStr),
    (get_apis simplify t (some s) excl).Sublist (get_apis simplify t none excl) ∧
    ∀ e ∈ get_apis simplify t (some s) excl,
      containsSub s (pyStrip '/' e.path) = true := by
  intro simplify t s excl
  constructor
  · simp only [get_apis, get_filtered_apis]
    refine (List.filter_sublist _).trans ?_
    rw [flatten_eq_dfs, flatten_eq_dfs]
    exact filterMap_mono_sublist (fun pp e he => assemble_mono he) _
  · intro e he
    simp only [get_apis, get_filtered_apis] at he
    exact (List.mem_filter.1 he).2

/-- Witness for **C1** at a concrete input: with filter string `x` on the
one-leaf tree, the filtered run keeps the descriptor with path `x/{v}`, which
is in the unfiltered run, and its stripped path contains `x`. -/
theorem get_apis_filter_sublist_witness :
    (get_apis id treeAngle (some ("x".toList)) []).Sublist
        (get_apis id treeAngle none []) ∧
      containsSub ("x".toList)
        (pyStrip '/' (Endpoint.path ⟨"x/\x7bv\x7d".toList, patAngle,
          .cls ("myapp.views".toList)⟩)) = true := by
  have h1 : get_apis id treeAngle (some ("x".toList)) [] =
      [⟨"x/\x7bv\x7d".toList, patAngle, .cls ("myapp.views".toList)⟩] := by
    simp [get_apis, treeAngle, flatten_patterns_tree, assemble_endpoint_data, patAngle,
      get_pattern_api_callback, exclude_router_api_root, exclude_format_endpoints,
      get_filtered_apis]
    decide
  have hmem : (⟨"x/\x7bv\x7d".toList, patAngle,
      .cls ("myapp.views".toList)⟩ : Endpoint) ∈
      get_apis id treeAngle (some ("x".toList)) [] := by
    rw [h1]
    exact List.mem_singleton_self _
  exact ⟨(get_apis_filter_sublist id treeAngle ("x".toList) []).1,
    (get_apis_filter_sublist id treeAngle ("x".toList) []).2 _ hmem⟩

/-! ### Exception-propagation lemmas -/

theorem assembleE_none_iff (simplifyE : PyStr → Option PyStr) (pat : LeafPattern)
    (pre : PyStr) (fp : Option PyStr) :
    assemble_endpoint_dataE simplifyE pat pre fp = none ↔
      (∃ cb, get_pattern_api_callback pat = some cb ∧
        exclude_router_api_root cb = false) ∧
      simplifyE (pre ++ pat.regexPattern) = none := by
  unfold assemble_endpoint_dataE
  cases hcb : get_pattern_api_callback pat with
  | none => simp
  | some cb =>
    simp only []
    by_cases hr : exclude_router_api_root cb
    · simp [hr]
    · cases hs : simplifyE (pre ++ pat.regexPattern) with
      | none => simp [hr, hs]
      | some raw =>
        constructor
        · intro hcontra
          rw [if_neg hr] at hcontra
          exfalso
          revert hcontra
          split
          · simp_all
          · split
            · simp
            · split <;> simp
        · rintro ⟨_, hs2⟩
          exact absurd hs2 (by simp)

theorem collectE_append (simplifyE : PyStr → Option PyStr) (fp : Option PyStr) :
    ∀ l1 l2 : List (PyStr × LeafPattern),
    collectE simplifyE fp (l1 ++ l2) =
      match collectE simplifyE fp l1 with
      | none => none
      | some r1 => (collectE simplifyE fp l2).map (fun r2 => r1 ++ r2)
  | [], l2 => by
    simp only [List.nil_append, collectE]
    cases collectE simplifyE fp l2 <;> simp
  | (pr, pat) :: l1, l2 => by
    simp only [List.cons_append, collectE, List.append_eq]
    cases assemble_endpoint_dataE simplifyE pat pr fp with
    | none => simp
    | some oe =>
      cases oe with
      | none => exact collectE_append simplifyE fp l1 l2
      | some e =>
        rw [collectE_append simplifyE fp l1 l2]
        cases collectE simplifyE fp l1 <;> cases collectE simplifyE fp l2 <;> simp

theorem collectE_none_iff (simplifyE : PyStr → Option PyStr) (fp : Option PyStr) :
    ∀ l : List (PyStr × LeafPattern),
    collectE simplifyE fp l = none ↔
      ∃ pp ∈ l, (∃ cb, get_pattern_api_callback pp.2 = some cb ∧
          exclude_router_api_root cb = false) ∧
        simplifyE (pp.1 ++ pp.2.regexPattern) = none
  | [] => by
    constructor
    · intro h
      exact absurd h (by simp [collectE])
    · rintro ⟨pp, hmem, _⟩
      exact absurd hmem (List.not_mem_nil pp)
  | (pr, pat) :: l => by
    simp only [collectE]
    cases ha : assemble_endpoint_dataE simplifyE pat pr fp with
    | none =>
      constructor
      · intro _
        exact ⟨(pr, pat), List.mem_cons_self _ _,
          (assembleE_none_iff simplifyE pat pr fp).1 ha⟩
      · intro _
        rfl
    | some oe =>
      have hna : ¬ ((∃ cb, get_pattern_api_callback pat = some cb ∧
          exclude_router_api_root cb = false) ∧
            simplifyE (pr ++ pat.regexPattern) = none) := by
        intro hc
        rw [(assembleE_none_iff simplifyE pat pr fp).2 hc] at ha
        exact absurd ha (by simp)
      have hcons : (∃ pp ∈ (pr, pat) :: l,
          (∃ cb, get_pattern_api_callback pp.2 = some cb ∧
            exclude_router_api_root cb = false) ∧
          simplifyE (pp.1 ++ pp.2.regexPattern) = none) ↔
          ∃ pp ∈ l, (∃ cb, get_pattern_api_callback pp.2 = some cb ∧
            exclude_router_api_root cb = false) ∧
          simplifyE (pp.1 ++ pp.2.regexPattern) = none := by
        constructor
        · rintro ⟨pp, hmem, hcond⟩
          rcases List.mem_cons.1 hmem with rfl | hmem'
          · exact absurd hcond hna
          · exact ⟨pp, hmem', hcond⟩
        · rintro ⟨pp, hmem, hcond⟩
          exact ⟨pp, List.mem_cons_of_mem _ hmem, hcond⟩
      rw [hcons]
      cases oe with
      | none => exact collectE_none_iff simplifyE fp l
      | some e =>
        rw [← collectE_none_iff simplifyE fp l]
        cases collectE simplifyE fp l <;> simp

theorem flattenE_eq_collect (simplifyE : PyStr → Option PyStr) (fp : Option PyStr)
    (excl : List PyStr) : ∀ (t : List RouteNode) (pre : PyStr),
    flatten_patterns_treeE simplifyE fp excl t pre =
      collectE simplifyE fp (dfs_leaves excl t pre) := by
  intro t pre
  induction t, pre using dfs_leaves.induct excl with
  | case1 pre => simp [flatten_patterns_treeE, dfs_leaves, collectE]
  | case2 pat rest pre ih =>
    rw [flatten_patterns_treeE, dfs_leaves, collectE, ih]
  | case3 ns rp children rest pre ih1 ih2 =>
    rw [flatten_patterns_treeE, dfs_leaves, collectE_append, ih1, ih2]
    by_cases hns : nsMem ns excl
    · simp [hns, collectE]
    · simp [hns]

theorem assembleE_total (simplify : PyStr → PyStr) (pat : LeafPattern) (pre : PyStr)
    (fp : Option PyStr) :
    assemble_endpoint_dataE (fun s => some (simplify s)) pat pre fp =
      some (assemble_endpoint_data simplify pat pre fp) := by
  unfold assemble_endpoint_dataE assemble_endpoint_data
  cases get_pattern_api_callback pat with
  | none => rfl
  | some cb =>
    simp only []
    by_cases hr : exclude_router_api_root cb
    · simp [hr]
    · simp only [hr, Bool.false_eq_true, if_false]
      split
      · rfl
      · split <;> rfl

theorem collectE_total (simplify : PyStr → PyStr) (fp : Option PyStr) :
    ∀ l : List (PyStr × LeafPattern),
    collectE (fun s => some (simplify s)) fp l =
      some (l.filterMap (fun pp => assemble_endpoint_data simplify pp.2 pp.1 fp))
  | [] => rfl
  | (pr, pat) :: l => by
    rw [collectE, assembleE_total, List.filterMap_cons]
    cases assemble_endpoint_data simplify pat pr fp with
    | none => exact collectE_total simplify fp l
    | some e => rw [collectE_total simplify fp l]; rfl

/-- **C9**: flattening with a fallible pattern simplifier raises to the caller
(returns no partial list) exactly when some depth-first-visited leaf that
passes the callback and router-root checks has a pattern that cannot be
simplified; with a total simplifier it always completes fully with the plain
flattening result. -/
theorem flatten_raises_iff_simplify_fails :
    ∀ (simplifyE : PyStr → Option PyStr) (fp : Option PyStr) (excl : List PyStr)
      (t : List RouteNode) (pre : PyStr),
    (flatten_patterns_treeE simplifyE fp excl t pre = none ↔
      ∃ pp ∈ dfs_leaves excl t pre,
        (∃ cb, get_pattern_api_callback pp.2 = some cb ∧
          exclude_router_api_root cb = false) ∧
        simplifyE (pp.1 ++ pp.2.regexPattern) = none) ∧
    ∀ simplify : PyStr → PyStr,
      flatten_patterns_treeE (fun s => some (simplify s)) fp excl t pre =
        some (flatten_patterns_tree simplify fp excl t pre) := by
  intro simplifyE fp excl t pre
  constructor
  · rw [flattenE_eq_collect]
    exact collectE_none_iff simplifyE fp (dfs_leaves excl t pre)
  · intro simplify
    rw [flattenE_eq_collect, collectE_total, flatten_eq_dfs]
